import Mathlib

/-!
Verification of the row-level LCS diff core of `lcs-png-diff-rs`
(`src/lib.rs`): the DP table (`create_table`), the trimmed alignment
(`lcs_diff`), and the compositing pipeline (`blend`, `put_diff_pixels`,
`diff`), shallowly embedded over `List Nat` byte buffers.
-/

set_option maxHeartbeats 1600000

/-- The three-way edit operation of `src/lib.rs` (`enum DiffResult`).
The Rust variants carry a borrowed `DiffElement { data: &T }`; the
embedding stores the referenced value directly. -/
inductive DiffResult (α : Type) : Type where
  | Removed (d : α)
  | Common (d : α)
  | Added (d : α)
deriving DecidableEq, Repr

/-- The payload of an edit operation (the `data` field of `DiffElement`). -/
def DiffResult.data {α : Type} : DiffResult α → α
  | .Removed d => d
  | .Common d => d
  | .Added d => d

def isCommon {α : Type} : DiffResult α → Bool
  | .Common _ => true
  | _ => false

def isAdded {α : Type} : DiffResult α → Bool
  | .Added _ => true
  | _ => false

def isRemoved {α : Type} : DiffResult α → Bool
  | .Removed _ => true
  | _ => false

def countCommon {α : Type} (l : List (DiffResult α)) : Nat := l.countP isCommon

def countAdded {α : Type} (l : List (DiffResult α)) : Nat := l.countP isAdded

def countRemoved {α : Type} (l : List (DiffResult α)) : Nat := l.countP isRemoved

/-- The payloads of the `Removed`/`Common` operations, in emission order
(the before-side reading of an edit script). -/
def beforeData {α : Type} (l : List (DiffResult α)) : List α :=
  l.filterMap fun d => match d with
    | .Removed x => some x
    | .Common x => some x
    | .Added _ => none

/-- The payloads of the `Added`/`Common` operations, in emission order
(the after-side reading of an edit script). -/
def afterData {α : Type} (l : List (DiffResult α)) : List α :=
  l.filterMap fun d => match d with
    | .Removed _ => none
    | .Common x => some x
    | .Added x => some x

/-- Length of the longest common subsequence, by the standard recurrence
(first argument plays the role of `new`/after, second of `old`/before,
matching the orientation of the Rust DP table). -/
def lcsLen {α : Type} [DecidableEq α] : List α → List α → Nat
  | [], _ => 0
  | _ :: _, [] => 0
  | a :: as, b :: bs =>
    if a = b then lcsLen as bs + 1
    else max (lcsLen as (b :: bs)) (lcsLen (a :: as) bs)

@[simp] theorem lcsLen_nil_left {α : Type} [DecidableEq α] (v : List α) :
    lcsLen [] v = 0 := by
  simp [lcsLen]

@[simp] theorem lcsLen_nil_right {α : Type} [DecidableEq α] (u : List α) :
    lcsLen u [] = 0 := by
  cases u <;> simp [lcsLen]

theorem lcsLen_cons_cons {α : Type} [DecidableEq α] (a b : α) (as bs : List α) :
    lcsLen (a :: as) (b :: bs) =
      if a = b then lcsLen as bs + 1
      else max (lcsLen as (b :: bs)) (lcsLen (a :: as) bs) := by
  simp [lcsLen]

/-- Every common subsequence is bounded by `lcsLen`. -/
theorem length_le_lcsLen {α : Type} [DecidableEq α] :
    ∀ (u v l : List α), List.Sublist l u → List.Sublist l v →
      l.length ≤ lcsLen u v := by
  intro u v
  induction u, v using lcsLen.induct with
  | case1 v =>
    intro l hu _
    simpa using List.Sublist.length_le hu
  | case2 a as =>
    intro l _ hv
    simpa using List.Sublist.length_le hv
  | case3 as b bs ih =>
    intro l hu hv
    rw [lcsLen_cons_cons, if_pos rfl]
    cases l with
    | nil => exact Nat.zero_le _
    | cons c l' =>
      cases hu with
      | cons _ hu' =>
        cases hv with
        | cons _ hv' =>
          exact Nat.le_succ_of_le (ih _ hu' hv')
        | cons₂ _ hv' =>
          have hl' : List.Sublist l' as :=
            (List.sublist_cons_self b l').trans hu'
          simpa using Nat.succ_le_succ (ih _ hl' hv')
      | cons₂ _ hu' =>
        cases hv with
        | cons _ hv' =>
          have hl' : List.Sublist l' bs :=
            (List.sublist_cons_self b l').trans hv'
          simpa using Nat.succ_le_succ (ih _ hu' hl')
        | cons₂ _ hv' =>
          simpa using Nat.succ_le_succ (ih _ hu' hv')
  | case4 a as b bs hne ih1 ih2 =>
    intro l hu hv
    rw [lcsLen_cons_cons, if_neg hne]
    cases l with
    | nil => exact Nat.zero_le _
    | cons c l' =>
      cases hv with
      | cons _ hv' =>
        exact le_max_of_le_right (ih2 _ hu hv')
      | cons₂ _ hv' =>
        cases hu with
        | cons _ hu' =>
          exact le_max_of_le_left (ih1 _ hu' (List.Sublist.cons₂ b hv'))
        | cons₂ _ hu' =>
          exact absurd rfl hne

/-- `lcsLen` is attained: some common subsequence has exactly that length. -/
theorem exists_lcs_witness {α : Type} [DecidableEq α] :
    ∀ (u v : List α), ∃ l : List α,
      List.Sublist l u ∧ List.Sublist l v ∧ l.length = lcsLen u v := by
  intro u v
  induction u, v using lcsLen.induct with
  | case1 v => exact ⟨[], List.nil_sublist _, List.nil_sublist _, by simp⟩
  | case2 a as => exact ⟨[], List.nil_sublist _, List.nil_sublist _, by simp⟩
  | case3 as b bs ih =>
    obtain ⟨l, hl1, hl2, hl3⟩ := ih
    refine ⟨b :: l, ?_, ?_, ?_⟩
    · exact List.Sublist.cons₂ b hl1
    · exact List.Sublist.cons₂ b hl2
    · rw [lcsLen_cons_cons, if_pos rfl]; simpa using hl3
  | case4 a as b bs hne ih1 ih2 =>
    rw [lcsLen_cons_cons, if_neg hne]
    obtain ⟨l1, h11, h12, h13⟩ := ih1
    obtain ⟨l2, h21, h22, h23⟩ := ih2
    rcases le_total (lcsLen (a :: as) bs) (lcsLen as (b :: bs)) with h | h
    · exact ⟨l1, List.Sublist.cons a h11, h12, by rw [h13, max_eq_left h]⟩
    · exact ⟨l2, h21, List.Sublist.cons b h22, by rw [h23, max_eq_right h]⟩

theorem lcsLen_reverse {α : Type} [DecidableEq α] (u v : List α) :
    lcsLen u.reverse v.reverse = lcsLen u v := by
  have key : ∀ (x y : List α), lcsLen x y ≤ lcsLen x.reverse y.reverse := by
    intro x y
    obtain ⟨l, h1, h2, h3⟩ := exists_lcs_witness x y
    calc lcsLen x y = l.reverse.length := by simp [h3]
    _ ≤ lcsLen x.reverse y.reverse :=
        length_le_lcsLen _ _ _ (List.reverse_sublist.mpr h1)
          (List.reverse_sublist.mpr h2)
  refine le_antisymm ?_ (key u v)
  have := key u.reverse v.reverse
  simpa using this

theorem lcsLen_append_left {α : Type} [DecidableEq α] (w u v : List α) :
    lcsLen (w ++ u) (w ++ v) = w.length + lcsLen u v := by
  induction w with
  | nil => simp
  | cons a w ih =>
    simp [List.cons_append, lcsLen_cons_cons, ih]
    omega

theorem lcsLen_append_right {α : Type} [DecidableEq α] (u v w : List α) :
    lcsLen (u ++ w) (v ++ w) = lcsLen u v + w.length := by
  have h := lcsLen_append_left w.reverse u.reverse v.reverse
  have h2 : lcsLen (u ++ w).reverse (v ++ w).reverse =
      w.reverse.length + lcsLen u.reverse v.reverse := by
    simpa [List.reverse_append] using h
  rw [lcsLen_reverse] at h2
  rw [h2, lcsLen_reverse]
  simp [Nat.add_comm]

@[simp] theorem getD_tail {α : Type} (l : List α) (j : Nat) (d : α) :
    l.tail.getD j d = l.getD (j + 1) d := by
  cases l <;> simp [List.getD]

theorem headD_eq_getD {α : Type} (l : List α) (d : α) :
    l.headD d = l.getD 0 d := by
  cases l <;> simp [List.getD]

/-- One row of the LCS table, computed right-to-left from the row below it
(`next`), mirroring the inner `j` loop of `create_table` in `src/lib.rs`:
cell `j` is `next[j+1] + 1` on a match and `max (next[j]) (row[j+1])`
otherwise, with a trailing `0` sentinel. -/
def tableRow {α : Type} [DecidableEq α] (a : α) : List α → List Nat → List Nat
  | [], _ => [0]
  | o :: os, next =>
    let rest := tableRow a os next.tail
    (if a = o then next.tail.headD 0 + 1
     else max (next.headD 0) (rest.headD 0)) :: rest

/-- The LCS table of `create_table` in `src/lib.rs`, built bottom-up: the
last row is all zeros, and each earlier row is `tableRow` of the row below.
Row `i`, column `j` holds the LCS length of `new.drop i` and `old.drop j`
(`new` indexes rows, `old` columns, as in the Rust code's comment). -/
def create_table {α : Type} [DecidableEq α] (old : List α) : List α → List (List Nat)
  | [] => [List.replicate (old.length + 1) 0]
  | a :: as =>
    let rest := create_table old as
    tableRow a old (rest.headD []) :: rest

/-- Table lookup `t[i][j]` (out-of-range reads default to 0; the code never
performs them). -/
def tableGet (t : List (List Nat)) (i j : Nat) : Nat :=
  (t.getD i []).getD j 0

theorem length_tableRow {α : Type} [DecidableEq α] (a : α) :
    ∀ (olds : List α) (next : List Nat),
      (tableRow a olds next).length = olds.length + 1 := by
  intro olds
  induction olds with
  | nil => intro next; simp [tableRow]
  | cons o os ih => intro next; simp [tableRow, ih]

theorem length_create_table {α : Type} [DecidableEq α] (old new : List α) :
    (create_table old new).length = new.length + 1 := by
  induction new with
  | nil => simp [create_table]
  | cons a as ih => simp [create_table, ih]

theorem length_mem_create_table {α : Type} [DecidableEq α] (old new : List α) :
    ∀ row ∈ create_table old new, row.length = old.length + 1 := by
  induction new with
  | nil =>
    intro row hrow
    simp only [create_table, List.mem_singleton] at hrow
    simp [hrow]
  | cons a as ih =>
    intro row hrow
    simp only [create_table, List.mem_cons] at hrow
    rcases hrow with h | h
    · simp [h, length_tableRow]
    · exact ih row h

theorem tableRow_getD {α : Type} [DecidableEq α] (a : α) (nw : List α) :
    ∀ (olds : List α) (next : List Nat),
      (∀ j, next.getD j 0 = lcsLen nw (olds.drop j)) →
      ∀ j, (tableRow a olds next).getD j 0 = lcsLen (a :: nw) (olds.drop j) := by
  intro olds
  induction olds with
  | nil =>
    intro next _ j
    cases j <;> simp [tableRow, List.getD]
  | cons o os ih =>
    intro next hnext j
    have htail : ∀ j, next.tail.getD j 0 = lcsLen nw (os.drop j) := by
      intro j
      rw [getD_tail, hnext (j + 1)]
      simp
    cases j with
    | zero =>
      have h0 : (tableRow a os next.tail).getD 0 0 = lcsLen (a :: nw) os := by
        simpa using ih next.tail htail 0
      simp only [tableRow, List.getD_cons_zero, List.drop_zero]
      rw [lcsLen_cons_cons]
      rw [headD_eq_getD (tableRow a os next.tail) 0, h0]
      rw [headD_eq_getD next.tail 0, htail 0]
      rw [headD_eq_getD next 0]
      have h1 : next.getD 0 0 = lcsLen nw (o :: os) := by simpa using hnext 0
      rw [h1]
      simp
    | succ j =>
      simp only [tableRow, List.getD_cons_succ]
      simpa using ih next.tail htail j

/-- Every cell of the table built by `create_table` holds the LCS length of
the corresponding suffixes: `t[i][j] = lcsLen (new.drop i) (old.drop j)`. -/
theorem tableGet_create_table {α : Type} [DecidableEq α] (old new : List α) :
    ∀ i j, tableGet (create_table old new) i j = lcsLen (new.drop i) (old.drop j) := by
  induction new with
  | nil =>
    intro i j
    cases i with
    | zero =>
      simp only [create_table, tableGet, List.getD_cons_zero, List.drop_nil]
      rcases Nat.lt_or_ge j (old.length + 1) with h | h
      · simp [List.getD_eq_getElem?_getD, List.getElem?_replicate, h]
      · rw [List.getD_eq_default]
        · simp
        · simpa using h
    | succ i =>
      simp [create_table, tableGet, List.getD, List.drop_nil]
  | cons a as ih =>
    intro i j
    cases i with
    | zero =>
      simp only [create_table, tableGet, List.getD_cons_zero, List.drop_zero]
      apply tableRow_getD
      intro j'
      have : (create_table old as).headD [] = (create_table old as).getD 0 [] :=
        headD_eq_getD _ _
      rw [this]
      simpa [tableGet] using ih 0 j'
    | succ i =>
      simp only [create_table, tableGet, List.getD_cons_succ, List.drop_succ_cons]
      exact ih i j

/-- Length of the common prefix of two lists (recursive form of the
`zip`/`take_while` count in `lcs_diff`). -/
def prefLen {α : Type} [DecidableEq α] : List α → List α → Nat
  | a :: as, b :: bs => if a = b then prefLen as bs + 1 else 0
  | _, _ => 0

/-- `prefix_size` of `lcs_diff` in `src/lib.rs`:
`old.iter().zip(new).take_while(|p| p.0 == p.1).count()`. -/
def prefix_size {α : Type} [DecidableEq α] (old new : List α) : Nat :=
  ((old.zip new).takeWhile fun p => decide (p.1 = p.2)).length

/-- `suffix_size` of `lcs_diff` in `src/lib.rs`: the common-suffix scan over
the reversed lists, capped at `min(old_len, new_len) - prefix_size`. -/
def suffix_size {α : Type} [DecidableEq α] (old new : List α) : Nat :=
  (((old.reverse.zip new.reverse).take
      (min old.length new.length - prefix_size old new)).takeWhile
    fun p => decide (p.1 = p.2)).length

/-- The before-side middle region `old[prefix_size..old_len - suffix_size]`. -/
def middle_old {α : Type} [DecidableEq α] (old new : List α) : List α :=
  (old.drop (prefix_size old new)).take
    (old.length - suffix_size old new - prefix_size old new)

/-- The after-side middle region `new[prefix_size..new_len - suffix_size]`. -/
def middle_new {α : Type} [DecidableEq α] (old new : List α) : List α :=
  (new.drop (prefix_size old new)).take
    (new.length - suffix_size old new - prefix_size old new)

/-- The backtracking loop of `lcs_diff` in `src/lib.rs`, plus the two
draining `while` loops that follow it: while both indices are in range,
emit `Common` on a match, else `Added` if `table[n+1][o] >= table[n][o+1]`
(ties favor `Added`) and `Removed` otherwise; once an index leaves its
range, drain the rest of `new` as `Added` then the rest of `old` as
`Removed`. The `fuel` argument only bounds the iteration count (each step
consumes one unit); any fuel of at least `new.length + old.length` is
exact. -/
def backtrack {α : Type} [DecidableEq α] (t : List (List Nat)) (old new : List α) :
    Nat → Nat → Nat → List (DiffResult α)
  | fuel + 1, n, o =>
    if h : n < new.length ∧ o < old.length then
      if new.get ⟨n, h.1⟩ = old.get ⟨o, h.2⟩ then
        .Common (new.get ⟨n, h.1⟩) :: backtrack t old new fuel (n + 1) (o + 1)
      else if tableGet t (n + 1) o ≥ tableGet t n (o + 1) then
        .Added (new.get ⟨n, h.1⟩) :: backtrack t old new fuel (n + 1) o
      else
        .Removed (old.get ⟨o, h.2⟩) :: backtrack t old new fuel n (o + 1)
    else
      (new.drop n).map .Added ++ (old.drop o).map .Removed
  | 0, n, o => (new.drop n).map .Added ++ (old.drop o).map .Removed

/-- `lcs_diff` of `src/lib.rs`: empty-side shortcuts, prefix/suffix
trimming, DP table over the middle regions, backtracking, and the trimmed
prefix/suffix spliced back in as `Common` operations. -/
def lcs_diff {α : Type} [DecidableEq α] (old new : List α) : List (DiffResult α) :=
  if new.length = 0 then old.map .Removed
  else if old.length = 0 then new.map .Added
  else
    let mOld := middle_old old new
    let mNew := middle_new old new
    (old.take (prefix_size old new)).map .Common
      ++ backtrack (create_table mOld mNew) mOld mNew
          (mNew.length + mOld.length + 1) 0 0
      ++ (old.drop (old.length - suffix_size old new)).map .Common

/-- The untrimmed algorithm the spec compares against: the same table
construction and backtracking run over the full sequences, with no
prefix/suffix trimming. -/
def lcs_diff_untrimmed {α : Type} [DecidableEq α] (old new : List α) :
    List (DiffResult α) :=
  backtrack (create_table old new) old new (new.length + old.length + 1) 0 0

theorem prefix_size_eq_prefLen {α : Type} [DecidableEq α] :
    ∀ old new : List α, prefix_size old new = prefLen old new := by
  intro old
  induction old with
  | nil => intro new; cases new <;> simp [prefix_size, prefLen]
  | cons a as ih =>
    intro new
    cases new with
    | nil => simp [prefix_size, prefLen]
    | cons b bs =>
      simp only [prefix_size, prefLen, List.zip_cons_cons, List.takeWhile_cons]
      by_cases hab : a = b
      · simpa [hab, prefix_size] using ih bs
      · simp [hab]

theorem prefLen_le_min {α : Type} [DecidableEq α] :
    ∀ u v : List α, prefLen u v ≤ min u.length v.length := by
  intro u
  induction u with
  | nil => intro v; simp [prefLen]
  | cons a as ih =>
    intro v
    cases v with
    | nil => simp [prefLen]
    | cons b bs =>
      simp only [prefLen]
      by_cases hab : a = b
      · have := ih bs
        simp only [if_pos hab, List.length_cons]
        omega
      · simp [hab]

theorem take_eq_of_le_prefLen {α : Type} [DecidableEq α] :
    ∀ (u v : List α) (k : Nat), k ≤ prefLen u v → u.take k = v.take k := by
  intro u
  induction u with
  | nil =>
    intro v k hk
    simp [prefLen] at hk
    simp [hk]
  | cons a as ih =>
    intro v k hk
    cases v with
    | nil => simp [prefLen] at hk; simp [hk]
    | cons b bs =>
      simp only [prefLen] at hk
      by_cases hab : a = b
      · rw [if_pos hab] at hk
        cases k with
        | zero => simp
        | succ k =>
          simp only [List.take_succ_cons, hab]
          rw [ih bs k (by omega)]
      · rw [if_neg hab] at hk
        have : k = 0 := by omega
        simp [this]

theorem prefLen_self {α : Type} [DecidableEq α] :
    ∀ l : List α, prefLen l l = l.length := by
  intro l
  induction l with
  | nil => simp [prefLen]
  | cons a as ih => simp [prefLen, ih]

theorem takeWhile_take {α : Type} (p : α → Bool) :
    ∀ (l : List α) (k : Nat), (l.take k).takeWhile p = (l.takeWhile p).take k := by
  intro l
  induction l with
  | nil => intro k; simp
  | cons a as ih =>
    intro k
    cases k with
    | zero => simp [List.takeWhile_cons]
    | succ k =>
      simp only [List.take_succ_cons, List.takeWhile_cons]
      by_cases ha : p a
      · simp [ha, ih k]
      · simp [ha]

theorem suffix_size_eq {α : Type} [DecidableEq α] (old new : List α) :
    suffix_size old new =
      min (prefLen old.reverse new.reverse)
        (min old.length new.length - prefix_size old new) := by
  unfold suffix_size
  rw [takeWhile_take, List.length_take]
  rw [min_comm]
  congr 1
  have := prefix_size_eq_prefLen old.reverse new.reverse
  rw [← this]
  rfl

@[simp] theorem beforeData_nil {α : Type} : beforeData ([] : List (DiffResult α)) = [] := rfl

@[simp] theorem beforeData_cons_removed {α : Type} (x : α) (l : List (DiffResult α)) :
    beforeData (.Removed x :: l) = x :: beforeData l := rfl

@[simp] theorem beforeData_cons_common {α : Type} (x : α) (l : List (DiffResult α)) :
    beforeData (.Common x :: l) = x :: beforeData l := rfl

@[simp] theorem beforeData_cons_added {α : Type} (x : α) (l : List (DiffResult α)) :
    beforeData (.Added x :: l) = beforeData l := rfl

@[simp] theorem afterData_nil {α : Type} : afterData ([] : List (DiffResult α)) = [] := rfl

@[simp] theorem afterData_cons_removed {α : Type} (x : α) (l : List (DiffResult α)) :
    afterData (.Removed x :: l) = afterData l := rfl

@[simp] theorem afterData_cons_common {α : Type} (x : α) (l : List (DiffResult α)) :
    afterData (.Common x :: l) = x :: afterData l := rfl

@[simp] theorem afterData_cons_added {α : Type} (x : α) (l : List (DiffResult α)) :
    afterData (.Added x :: l) = x :: afterData l := rfl

@[simp] theorem beforeData_append {α : Type} (l1 l2 : List (DiffResult α)) :
    beforeData (l1 ++ l2) = beforeData l1 ++ beforeData l2 :=
  List.filterMap_append _ _ _

@[simp] theorem afterData_append {α : Type} (l1 l2 : List (DiffResult α)) :
    afterData (l1 ++ l2) = afterData l1 ++ afterData l2 :=
  List.filterMap_append _ _ _

@[simp] theorem beforeData_map_removed {α : Type} (l : List α) :
    beforeData (l.map .Removed) = l := by
  induction l with
  | nil => rfl
  | cons a as ih => simp [ih]

@[simp] theorem beforeData_map_common {α : Type} (l : List α) :
    beforeData (l.map .Common) = l := by
  induction l with
  | nil => rfl
  | cons a as ih => simp [ih]

@[simp] theorem beforeData_map_added {α : Type} (l : List α) :
    beforeData (l.map .Added) = [] := by
  induction l with
  | nil => rfl
  | cons a as ih => simp [ih]

@[simp] theorem afterData_map_removed {α : Type} (l : List α) :
    afterData (l.map .Removed) = [] := by
  induction l with
  | nil => rfl
  | cons a as ih => simp [ih]

@[simp] theorem afterData_map_common {α : Type} (l : List α) :
    afterData (l.map .Common) = l := by
  induction l with
  | nil => rfl
  | cons a as ih => simp [ih]

@[simp] theorem afterData_map_added {α : Type} (l : List α) :
    afterData (l.map .Added) = l := by
  induction l with
  | nil => rfl
  | cons a as ih => simp [ih]

theorem length_beforeData {α : Type} (l : List (DiffResult α)) :
    (beforeData l).length = countRemoved l + countCommon l := by
  induction l with
  | nil => rfl
  | cons d rest ih =>
    cases d <;>
      simp [countRemoved, countCommon, List.countP_cons, isRemoved, isCommon, ih] <;>
      omega

theorem length_afterData {α : Type} (l : List (DiffResult α)) :
    (afterData l).length = countAdded l + countCommon l := by
  induction l with
  | nil => rfl
  | cons d rest ih =>
    cases d <;>
      simp [countAdded, countCommon, List.countP_cons, isAdded, isCommon, ih] <;>
      omega

theorem length_eq_counts {α : Type} (l : List (DiffResult α)) :
    l.length = countRemoved l + countCommon l + countAdded l := by
  induction l with
  | nil => rfl
  | cons d rest ih =>
    cases d <;>
      simp [countRemoved, countCommon, countAdded, List.countP_cons,
        isRemoved, isCommon, isAdded, ih] <;>
      omega

theorem countCommon_map_removed {α : Type} (l : List α) :
    countCommon (l.map .Removed) = 0 := by
  induction l with
  | nil => rfl
  | cons a as ih => simpa [countCommon, List.countP_cons, isCommon] using ih

theorem countCommon_map_added {α : Type} (l : List α) :
    countCommon (l.map .Added) = 0 := by
  induction l with
  | nil => rfl
  | cons a as ih => simpa [countCommon, List.countP_cons, isCommon] using ih

theorem countCommon_map_common {α : Type} (l : List α) :
    countCommon (l.map .Common) = l.length := by
  induction l with
  | nil => rfl
  | cons a as ih => simpa [countCommon, List.countP_cons, isCommon] using ih

theorem countCommon_append {α : Type} (l1 l2 : List (DiffResult α)) :
    countCommon (l1 ++ l2) = countCommon l1 + countCommon l2 :=
  List.countP_append _ _ _

/-- Reading the before-side data of the backtracking output from state
`(n, o)` recovers exactly `old.drop o`, for any table and any fuel. -/
theorem beforeData_backtrack {α : Type} [DecidableEq α]
    (t : List (List Nat)) (old new : List α) :
    ∀ (fuel n o : Nat), beforeData (backtrack t old new fuel n o) = old.drop o := by
  intro fuel
  induction fuel with
  | zero =>
    intro n o
    rw [backtrack, beforeData_append, beforeData_map_added, beforeData_map_removed,
      List.nil_append]
  | succ fuel ih =>
    intro n o
    rw [backtrack]
    by_cases h : n < new.length ∧ o < old.length
    · rw [dif_pos h]
      by_cases heq : new.get ⟨n, h.1⟩ = old.get ⟨o, h.2⟩
      · rw [if_pos heq]
        rw [beforeData_cons_common, ih (n + 1) (o + 1)]
        rw [List.drop_eq_getElem_cons h.2]
        rw [heq, List.get_eq_getElem]
      · rw [if_neg heq]
        by_cases hge : tableGet t (n + 1) o ≥ tableGet t n (o + 1)
        · rw [if_pos hge, beforeData_cons_added, ih (n + 1) o]
        · rw [if_neg hge, beforeData_cons_removed, ih n (o + 1)]
          rw [List.drop_eq_getElem_cons h.2, List.get_eq_getElem]
    · rw [dif_neg h, beforeData_append, beforeData_map_added, beforeData_map_removed,
        List.nil_append]

/-- Reading the after-side data of the backtracking output from state
`(n, o)` recovers exactly `new.drop n`, for any table and any fuel. -/
theorem afterData_backtrack {α : Type} [DecidableEq α]
    (t : List (List Nat)) (old new : List α) :
    ∀ (fuel n o : Nat), afterData (backtrack t old new fuel n o) = new.drop n := by
  intro fuel
  induction fuel with
  | zero =>
    intro n o
    rw [backtrack, afterData_append, afterData_map_added, afterData_map_removed,
      List.append_nil]
  | succ fuel ih =>
    intro n o
    rw [backtrack]
    by_cases h : n < new.length ∧ o < old.length
    · rw [dif_pos h]
      by_cases heq : new.get ⟨n, h.1⟩ = old.get ⟨o, h.2⟩
      · rw [if_pos heq]
        rw [afterData_cons_common, ih (n + 1) (o + 1)]
        rw [List.drop_eq_getElem_cons h.1, List.get_eq_getElem]
      · rw [if_neg heq]
        by_cases hge : tableGet t (n + 1) o ≥ tableGet t n (o + 1)
        · rw [if_pos hge, afterData_cons_added, ih (n + 1) o]
          rw [List.drop_eq_getElem_cons h.1, List.get_eq_getElem]
        · rw [if_neg hge, afterData_cons_removed, ih n (o + 1)]
    · rw [dif_neg h, afterData_append, afterData_map_added, afterData_map_removed,
        List.append_nil]

/-- With the table actually built by `create_table` and enough fuel, the
backtracking loop emits exactly `lcsLen (new.drop n) (old.drop o)` `Common`
operations from state `(n, o)`: the loop is LCS-optimal. -/
theorem countCommon_backtrack {α : Type} [DecidableEq α] (old new : List α) :
    ∀ (fuel n o : Nat), new.length - n + (old.length - o) ≤ fuel →
      countCommon (backtrack (create_table old new) old new fuel n o) =
        lcsLen (new.drop n) (old.drop o) := by
  intro fuel
  induction fuel with
  | zero =>
    intro n o hfuel
    rw [backtrack, countCommon_append, countCommon_map_added, countCommon_map_removed]
    rcases Nat.le_or_le new.length n with hn | hn
    · rw [List.drop_eq_nil_of_le hn, lcsLen_nil_left]
    · have ho : old.length ≤ o := by omega
      rw [List.drop_eq_nil_of_le ho, lcsLen_nil_right]
  | succ fuel ih =>
    intro n o hfuel
    rw [backtrack]
    by_cases h : n < new.length ∧ o < old.length
    · rw [dif_pos h]
      rw [List.drop_eq_getElem_cons h.1, List.drop_eq_getElem_cons h.2,
        lcsLen_cons_cons]
      rw [← List.drop_eq_getElem_cons h.1, ← List.drop_eq_getElem_cons h.2]
      by_cases heq : new.get ⟨n, h.1⟩ = old.get ⟨o, h.2⟩
      · have heq' : new[n] = old[o] := by
          simpa [List.get_eq_getElem] using heq
        rw [if_pos heq, if_pos heq']
        have := ih (n + 1) (o + 1) (by omega)
        simp [countCommon, List.countP_cons, isCommon] at this ⊢
        omega
      · have heq' : ¬ new[n] = old[o] := by
          simpa [List.get_eq_getElem] using heq
        rw [if_neg heq, if_neg heq']
        rw [tableGet_create_table, tableGet_create_table]
        by_cases hge : lcsLen (new.drop (n + 1)) (old.drop o) ≥
            lcsLen (new.drop n) (old.drop (o + 1))
        · rw [if_pos hge, max_eq_left hge]
          have := ih (n + 1) o (by omega)
          simp [countCommon, List.countP_cons, isCommon] at this ⊢
          omega
        · rw [if_neg hge, max_eq_right (le_of_not_le hge)]
          have := ih n (o + 1) (by omega)
          simp [countCommon, List.countP_cons, isCommon] at this ⊢
          omega
    · rw [dif_neg h]
      rw [countCommon_append, countCommon_map_added, countCommon_map_removed]
      rcases Nat.lt_or_ge n new.length with hn | hn
      · have ho : old.length ≤ o := by
          rcases Nat.lt_or_ge o old.length with ho | ho
          · exact absurd ⟨hn, ho⟩ h
          · exact ho
        rw [List.drop_eq_nil_of_le ho, lcsLen_nil_right]
      · rw [List.drop_eq_nil_of_le hn, lcsLen_nil_left]

/-- Every operation emitted by the backtracking loop carries data from one
of the two input sequences. -/
theorem data_mem_backtrack {α : Type} [DecidableEq α]
    (t : List (List Nat)) (old new : List α) :
    ∀ (fuel n o : Nat) (d : DiffResult α), d ∈ backtrack t old new fuel n o →
      d.data ∈ old ∨ d.data ∈ new := by
  intro fuel
  induction fuel with
  | zero =>
    intro n o d hd
    rw [backtrack] at hd
    rcases List.mem_append.mp hd with hd | hd
    · obtain ⟨x, hx, rfl⟩ := List.mem_map.mp hd
      exact Or.inr (List.mem_of_mem_drop hx)
    · obtain ⟨x, hx, rfl⟩ := List.mem_map.mp hd
      exact Or.inl (List.mem_of_mem_drop hx)
  | succ fuel ih =>
    intro n o d hd
    rw [backtrack] at hd
    by_cases h : n < new.length ∧ o < old.length
    · rw [dif_pos h] at hd
      by_cases heq : new.get ⟨n, h.1⟩ = old.get ⟨o, h.2⟩
      · rw [if_pos heq] at hd
        rcases List.mem_cons.mp hd with rfl | hd
        · exact Or.inr (by simpa [DiffResult.data] using List.get_mem new n h.1)
        · exact ih _ _ _ hd
      · rw [if_neg heq] at hd
        by_cases hge : tableGet t (n + 1) o ≥ tableGet t n (o + 1)
        · rw [if_pos hge] at hd
          rcases List.mem_cons.mp hd with rfl | hd
          · exact Or.inr (by simpa [DiffResult.data] using List.get_mem new n h.1)
          · exact ih _ _ _ hd
        · rw [if_neg hge] at hd
          rcases List.mem_cons.mp hd with rfl | hd
          · exact Or.inl (by simpa [DiffResult.data] using List.get_mem old o h.2)
          · exact ih _ _ _ hd
    · rw [dif_neg h] at hd
      rcases List.mem_append.mp hd with hd | hd
      · obtain ⟨x, hx, rfl⟩ := List.mem_map.mp hd
        exact Or.inr (List.mem_of_mem_drop hx)
      · obtain ⟨x, hx, rfl⟩ := List.mem_map.mp hd
        exact Or.inl (List.mem_of_mem_drop hx)

theorem take_middle_drop_decomp {α : Type} (l : List α) (p k : Nat) :
    l.take p ++ ((l.drop p).take k ++ l.drop (p + k)) = l := by
  have h : l.drop (p + k) = (l.drop p).drop k := (List.drop_drop k p l).symm
  rw [h, List.take_append_drop, List.take_append_drop]

theorem prefix_suffix_le_min {α : Type} [DecidableEq α] (old new : List α) :
    prefix_size old new + suffix_size old new ≤ min old.length new.length := by
  have h1 := prefix_size_eq_prefLen old new
  have h2 := prefLen_le_min old new
  have h3 := suffix_size_eq old new
  omega

theorem take_prefix_size_eq {α : Type} [DecidableEq α] (old new : List α) :
    old.take (prefix_size old new) = new.take (prefix_size old new) := by
  rw [prefix_size_eq_prefLen]
  exact take_eq_of_le_prefLen old new _ le_rfl

theorem drop_suffix_size_eq {α : Type} [DecidableEq α] (old new : List α) :
    old.drop (old.length - suffix_size old new) =
      new.drop (new.length - suffix_size old new) := by
  have hs : suffix_size old new ≤ prefLen old.reverse new.reverse := by
    have := suffix_size_eq old new
    omega
  have hmin := prefix_suffix_le_min old new
  have htake : old.reverse.take (suffix_size old new) =
      new.reverse.take (suffix_size old new) :=
    take_eq_of_le_prefLen old.reverse new.reverse _ hs
  have hold : (old.drop (old.length - suffix_size old new)).reverse =
      old.reverse.take (suffix_size old new) := by
    rw [List.reverse_drop]
    congr 1
    omega
  have hnew : (new.drop (new.length - suffix_size old new)).reverse =
      new.reverse.take (suffix_size old new) := by
    rw [List.reverse_drop]
    congr 1
    omega
  have : (old.drop (old.length - suffix_size old new)).reverse =
      (new.drop (new.length - suffix_size old new)).reverse := by
    rw [hold, hnew, htake]
  simpa using congrArg List.reverse this

theorem old_decomp {α : Type} [DecidableEq α] (old new : List α) :
    old.take (prefix_size old new) ++
      (middle_old old new ++ old.drop (old.length - suffix_size old new)) = old := by
  have hmin := prefix_suffix_le_min old new
  have h := take_middle_drop_decomp old (prefix_size old new)
    (old.length - suffix_size old new - prefix_size old new)
  rw [show prefix_size old new +
        (old.length - suffix_size old new - prefix_size old new) =
      old.length - suffix_size old new from by omega] at h
  rw [middle_old]
  exact h

theorem new_decomp {α : Type} [DecidableEq α] (old new : List α) :
    new.take (prefix_size old new) ++
      (middle_new old new ++ new.drop (new.length - suffix_size old new)) = new := by
  have hmin := prefix_suffix_le_min old new
  have h := take_middle_drop_decomp new (prefix_size old new)
    (new.length - suffix_size old new - prefix_size old new)
  rw [show prefix_size old new +
        (new.length - suffix_size old new - prefix_size old new) =
      new.length - suffix_size old new from by omega] at h
  rw [middle_new]
  exact h

theorem lcsLen_split {α : Type} [DecidableEq α]
    (old new w mN mO sfx : List α)
    (hN : w ++ (mN ++ sfx) = new) (hO : w ++ (mO ++ sfx) = old) :
    lcsLen new old = w.length + lcsLen mN mO + sfx.length := by
  subst hN
  subst hO
  rw [lcsLen_append_left, lcsLen_append_right]
  omega

/-- Reading the `Removed`/`Common` payloads of `lcs_diff old new` in order
reproduces `old`. -/
theorem beforeData_lcs_diff {α : Type} [DecidableEq α] (old new : List α) :
    beforeData (lcs_diff old new) = old := by
  rw [lcs_diff]
  by_cases hnew : new.length = 0
  · rw [if_pos hnew, beforeData_map_removed]
  · rw [if_neg hnew]
    by_cases hold : old.length = 0
    · rw [if_pos hold, beforeData_map_added]
      exact (List.length_eq_zero.mp hold).symm
    · rw [if_neg hold]
      simp only [beforeData_append, beforeData_map_common]
      rw [beforeData_backtrack, List.drop_zero, List.append_assoc]
      exact old_decomp old new

/-- Reading the `Added`/`Common` payloads of `lcs_diff old new` in order
reproduces `new`. -/
theorem afterData_lcs_diff {α : Type} [DecidableEq α] (old new : List α) :
    afterData (lcs_diff old new) = new := by
  rw [lcs_diff]
  by_cases hnew : new.length = 0
  · rw [if_pos hnew, afterData_map_removed]
    exact (List.length_eq_zero.mp hnew).symm
  · rw [if_neg hnew]
    by_cases hold : old.length = 0
    · rw [if_pos hold, afterData_map_added]
    · rw [if_neg hold]
      simp only [afterData_append, afterData_map_common]
      rw [afterData_backtrack, List.drop_zero, List.append_assoc]
      rw [take_prefix_size_eq old new, drop_suffix_size_eq old new]
      exact new_decomp old new

/-- The number of `Common` operations in `lcs_diff old new` is the LCS
length of the two full sequences. -/
theorem countCommon_lcs_diff {α : Type} [DecidableEq α] (old new : List α) :
    countCommon (lcs_diff old new) = lcsLen new old := by
  rw [lcs_diff]
  by_cases hnew : new.length = 0
  · rw [if_pos hnew, countCommon_map_removed]
    rw [List.length_eq_zero.mp hnew, lcsLen_nil_left]
  · rw [if_neg hnew]
    by_cases hold : old.length = 0
    · rw [if_pos hold, countCommon_map_added]
      rw [List.length_eq_zero.mp hold, lcsLen_nil_right]
    · rw [if_neg hold]
      have hmin := prefix_suffix_le_min old new
      simp only [countCommon_append, countCommon_map_common]
      rw [countCommon_backtrack (middle_old old new) (middle_new old new)
        _ 0 0 (by omega)]
      simp only [List.drop_zero]
      have hO := old_decomp old new
      rw [take_prefix_size_eq old new, drop_suffix_size_eq old new] at hO
      have key := lcsLen_split old new (new.take (prefix_size old new))
        (middle_new old new) (middle_old old new)
        (new.drop (new.length - suffix_size old new)) (new_decomp old new) hO
      rw [key]
      have hlen1 : (old.take (prefix_size old new)).length = prefix_size old new := by
        rw [List.length_take]
        omega
      have hlen2 : (new.take (prefix_size old new)).length = prefix_size old new := by
        rw [List.length_take]
        omega
      have hlen3 : (old.drop (old.length - suffix_size old new)).length =
          suffix_size old new := by
        rw [List.length_drop]
        omega
      have hlen4 : (new.drop (new.length - suffix_size old new)).length =
          suffix_size old new := by
        rw [List.length_drop]
        omega
      rw [hlen1, hlen2, hlen3, hlen4]

theorem beforeData_lcs_diff_untrimmed {α : Type} [DecidableEq α] (old new : List α) :
    beforeData (lcs_diff_untrimmed old new) = old := by
  rw [lcs_diff_untrimmed]
  simpa using beforeData_backtrack (create_table old new) old new _ 0 0

theorem afterData_lcs_diff_untrimmed {α : Type} [DecidableEq α] (old new : List α) :
    afterData (lcs_diff_untrimmed old new) = new := by
  rw [lcs_diff_untrimmed]
  simpa using afterData_backtrack (create_table old new) old new _ 0 0

theorem countCommon_lcs_diff_untrimmed {α : Type} [DecidableEq α] (old new : List α) :
    countCommon (lcs_diff_untrimmed old new) = lcsLen new old := by
  rw [lcs_diff_untrimmed]
  simpa using countCommon_backtrack old new (new.length + old.length + 1) 0 0 (by omega)

theorem counts_lcs_diff {α : Type} [DecidableEq α] (old new : List α) :
    countRemoved (lcs_diff old new) + countCommon (lcs_diff old new) = old.length ∧
    countAdded (lcs_diff old new) + countCommon (lcs_diff old new) = new.length := by
  constructor
  · rw [← length_beforeData, beforeData_lcs_diff]
  · rw [← length_afterData, afterData_lcs_diff]

theorem counts_lcs_diff_untrimmed {α : Type} [DecidableEq α] (old new : List α) :
    countRemoved (lcs_diff_untrimmed old new) +
        countCommon (lcs_diff_untrimmed old new) = old.length ∧
    countAdded (lcs_diff_untrimmed old new) +
        countCommon (lcs_diff_untrimmed old new) = new.length := by
  constructor
  · rw [← length_beforeData, beforeData_lcs_diff_untrimmed]
  · rw [← length_afterData, afterData_lcs_diff_untrimmed]

/-- Diffing a sequence against itself yields one `Common` operation per
element, in order. -/
theorem lcs_diff_self {α : Type} [DecidableEq α] (l : List α) :
    lcs_diff l l = l.map .Common := by
  rw [lcs_diff]
  by_cases hl : l.length = 0
  · rw [if_pos hl]
    rw [List.length_eq_zero.mp hl]
    rfl
  · rw [if_neg hl, if_neg hl]
    have hp : prefix_size l l = l.length := by
      rw [prefix_size_eq_prefLen, prefLen_self]
    have hs : suffix_size l l = 0 := by
      have := suffix_size_eq l l
      omega
    have hmo : middle_old l l = [] := by
      rw [middle_old, hp]
      simp
    have hmn : middle_new l l = [] := by
      rw [middle_new, hp]
      simp
    rw [hmo, hmn, hp, hs]
    rw [List.take_length]
    simp [backtrack]

/-- Modelled from the spec: the row-token codec is an external collaborator
("the encoding of a scanline into a comparable token ... is described only
by its contract"); the implementation uses the `base64` crate. The model
implements standard padded base64 over byte lists (tokens are lists of
ASCII codes), with the crate's error taxonomy. -/
inductive DecodeError : Type where
  | invalidByte
  | invalidLength
  | invalidLastSymbol
deriving DecidableEq, Repr

/-- The standard base64 alphabet, as ASCII codes. -/
def b64alphabet : List Nat :=
  (List.range 26).map (· + 65) ++ (List.range 26).map (· + 97) ++
    (List.range 10).map (· + 48) ++ [43, 47]

def encodeChar (n : Nat) : Nat := b64alphabet.getD n 0

def decodeChar (c : Nat) : Option Nat := b64alphabet.findIdx? (fun a => a == c)

/-- Modelled from the spec: `base64::encode` (standard alphabet, padded),
three bytes to four symbols, `61` is the ASCII pad `=`. -/
def b64encode : List Nat → List Nat
  | [] => []
  | [b0] => [encodeChar (b0 / 4), encodeChar (b0 % 4 * 16), 61, 61]
  | [b0, b1] => [encodeChar (b0 / 4), encodeChar (b0 % 4 * 16 + b1 / 16),
      encodeChar (b1 % 16 * 4), 61]
  | b0 :: b1 :: b2 :: rest =>
      encodeChar (b0 / 4) :: encodeChar (b0 % 4 * 16 + b1 / 16) ::
        encodeChar (b1 % 16 * 4 + b2 / 64) :: encodeChar (b2 % 64) :: b64encode rest

/-- Modelled from the spec: `base64::decode`, failing on symbols outside
the alphabet, on lengths that are not a multiple of four, and on non-zero
trailing bits before the padding. -/
def b64decode : List Nat → Except DecodeError (List Nat)
  | [] => .ok []
  | [c0, c1, 61, 61] =>
    match decodeChar c0, decodeChar c1 with
    | some s0, some s1 =>
      if s1 % 16 = 0 then .ok [s0 * 4 + s1 / 16] else .error .invalidLastSymbol
    | _, _ => .error .invalidByte
  | [c0, c1, c2, 61] =>
    match decodeChar c0, decodeChar c1, decodeChar c2 with
    | some s0, some s1, some s2 =>
      if s2 % 4 = 0 then .ok [s0 * 4 + s1 / 16, s1 % 16 * 16 + s2 / 4]
      else .error .invalidLastSymbol
    | _, _, _ => .error .invalidByte
  | c0 :: c1 :: c2 :: c3 :: rest =>
    match decodeChar c0, decodeChar c1, decodeChar c2, decodeChar c3 with
    | some s0, some s1, some s2, some s3 =>
      match b64decode rest with
      | .ok bs =>
        .ok ((s0 * 4 + s1 / 16) :: (s1 % 16 * 16 + s2 / 4) :: (s2 % 4 * 64 + s3) :: bs)
      | .error e => .error e
    | _, _, _, _ => .error .invalidByte
  | _ => .error .invalidLength

theorem decodeChar_encodeChar : ∀ n, n < 64 → decodeChar (encodeChar n) = some n := by
  decide

theorem encodeChar_ne_61 (n : Nat) : ¬ encodeChar n = 61 := by
  rcases Nat.lt_or_ge n 64 with h | h
  · have hb : ∀ m, m < 64 → ¬ b64alphabet.getD m 0 = 61 := by decide
    exact hb n h
  · rw [encodeChar, List.getD_eq_default]
    · decide
    · have : b64alphabet.length = 64 := by decide
      omega

/-- Decoding an encoder output recovers the bytes: the round trip that makes
the compositor's decode step infallible on tokens the extractor produced. -/
theorem b64decode_b64encode : ∀ bs : List Nat, (∀ b ∈ bs, b < 256) →
    b64decode (b64encode bs) = .ok bs := by
  intro bs
  induction bs using b64encode.induct with
  | case1 =>
    intro _
    rfl
  | case2 b0 =>
    intro hb
    have h0 : b0 < 256 := hb b0 (by simp)
    rw [b64encode, b64decode]
    rw [decodeChar_encodeChar _ (by omega), decodeChar_encodeChar _ (by omega)]
    simp only
    rw [if_pos (by omega)]
    simp only [Except.ok.injEq, List.cons.injEq, and_true]
    omega
  | case3 b0 b1 =>
    intro hb
    have h0 : b0 < 256 := hb b0 (by simp)
    have h1 : b1 < 256 := hb b1 (by simp)
    rw [b64encode, b64decode]
    rw [decodeChar_encodeChar _ (by omega), decodeChar_encodeChar _ (by omega),
      decodeChar_encodeChar _ (by omega)]
    simp only
    rw [if_pos (by omega)]
    simp only [Except.ok.injEq, List.cons.injEq, and_true]
    constructor
    · omega
    · omega
    all_goals
      intro h61
      intros
      exact absurd h61 (encodeChar_ne_61 _)
  | case4 b0 b1 b2 rest ih =>
    intro hb
    have h0 : b0 < 256 := hb b0 (by simp)
    have h1 : b1 < 256 := hb b1 (by simp)
    have h2 : b2 < 256 := hb b2 (by simp)
    have hrest : ∀ b ∈ rest, b < 256 := fun b hbr => hb b (by simp [hbr])
    rw [b64encode, b64decode]
    rw [decodeChar_encodeChar _ (by omega), decodeChar_encodeChar _ (by omega),
      decodeChar_encodeChar _ (by omega), decodeChar_encodeChar _ (by omega)]
    simp only
    rw [ih hrest]
    simp only [Except.ok.injEq, List.cons.injEq]
    refine ⟨by omega, by omega, by omega, trivial⟩
    all_goals
      intro h61
      intros
      exact absurd h61 (encodeChar_ne_61 _)

/-- `slice::chunks`: split into contiguous chunks of `k` elements (last one
possibly shorter). Structured with a fuel argument (the list length) purely
to keep the recursion structural; `k = 0` (where Rust panics) yields `[]`. -/
def chunksGo {α : Type} (k : Nat) : Nat → List α → List (List α)
  | _, [] => []
  | 0, _ :: _ => []
  | fuel + 1, a :: rest => ((a :: rest).take k) :: chunksGo k fuel ((a :: rest).drop k)

def chunksOf {α : Type} (k : Nat) (l : List α) : List (List α) :=
  chunksGo k l.length l

theorem chunksGo_fuel {α : Type} (k : Nat) (hk : 0 < k) :
    ∀ (fuel fuel' : Nat) (l : List α),
      l.length ≤ fuel → l.length ≤ fuel' → chunksGo k fuel l = chunksGo k fuel' l := by
  intro fuel
  induction fuel with
  | zero =>
    intro fuel' l hl _
    have : l = [] := List.eq_nil_of_length_eq_zero (by omega)
    subst this
    cases fuel' <;> rfl
  | succ fuel ih =>
    intro fuel' l hl hl'
    cases l with
    | nil => cases fuel' <;> rfl
    | cons a rest =>
      cases fuel' with
      | zero => simp at hl'
      | succ fuel' =>
        rw [chunksGo, chunksGo]
        congr 1
        apply ih
        · simp at hl ⊢
          omega
        · simp at hl' ⊢
          omega

theorem chunksOf_cons {α : Type} (k : Nat) (hk : 0 < k) (l : List α) (hl : l ≠ []) :
    chunksOf k l = l.take k :: chunksOf k (l.drop k) := by
  rw [chunksOf, chunksOf]
  cases l with
  | nil => exact absurd rfl hl
  | cons a rest =>
    rw [List.length_cons, chunksGo]
    congr 1
    apply chunksGo_fuel k hk <;>
      simp only [List.length_drop, List.length_cons] <;> omega

/-- For a buffer that is an exact multiple of the stride, `chunksOf`
produces `h` chunks of length `k` whose concatenation is the buffer. -/
theorem chunksOf_spec {α : Type} (k : Nat) (hk : 0 < k) :
    ∀ (h : Nat) (l : List α), l.length = h * k →
      (chunksOf k l).length = h ∧ (chunksOf k l).flatten = l ∧
        ∀ c ∈ chunksOf k l, c.length = k := by
  intro h
  induction h with
  | zero =>
    intro l hl
    have : l = [] := List.eq_nil_of_length_eq_zero (by omega)
    subst this
    exact ⟨rfl, rfl, by simp [chunksOf, chunksGo]⟩
  | succ h ih =>
    intro l hl
    rw [Nat.succ_mul] at hl
    have hne : l ≠ [] := by
      intro hnil
      subst hnil
      simp at hl
      omega
    rw [chunksOf_cons k hk l hne]
    have hdrop : (l.drop k).length = h * k := by
      rw [List.length_drop]
      omega
    obtain ⟨ih1, ih2, ih3⟩ := ih (l.drop k) hdrop
    refine ⟨by simp [ih1], ?_, ?_⟩
    · simp only [List.flatten_cons, ih2]
      exact List.take_append_drop k l
    · intro c hc
      rcases List.mem_cons.mp hc with rfl | hc
      · rw [List.length_take]
        omega
      · exact ih3 c hc

/-- The RGBA image abstraction the core consumes: a pixel width, a height,
and the raw byte buffer (`DynamicImage::as_bytes`), assumed RGBA
(4 bytes per pixel). -/
structure Img : Type where
  width : Nat
  height : Nat
  data : List Nat
deriving DecidableEq, Repr

def BLACK : Nat × Nat × Nat := (0, 0, 0)

def RED : Nat × Nat × Nat := (255, 119, 119)

def GREEN : Nat × Nat × Nat := (99, 195, 99)

/-- The fixed highlight blend rate (`static RATE: f32 = 0.25`). -/
def RATE : ℚ := 1 / 4

/-- `blend` of `src/lib.rs`: each of the first three channels becomes
`base * (1 - rate) + rgb * rate` truncated to an integer; the alpha
channel passes through. The Rust code computes this in `f32`; for the
rates `0` and `1/4` and byte-range channel values every intermediate
`f32` value is exactly representable and the `as u8` cast truncates the
exact value, so exact rational arithmetic with a floor models it
faithfully. -/
def blend (base : Nat × Nat × Nat × Nat) (rgb : Nat × Nat × Nat) (rate : ℚ) :
    Nat × Nat × Nat × Nat :=
  (⌊(base.1 : ℚ) * (1 - rate) + (rgb.1 : ℚ) * rate⌋₊,
   ⌊(base.2.1 : ℚ) * (1 - rate) + (rgb.2.1 : ℚ) * rate⌋₊,
   ⌊(base.2.2.1 : ℚ) * (1 - rate) + (rgb.2.2 : ℚ) * rate⌋₊,
   base.2.2.2)

def pixelList (p : Nat × Nat × Nat × Nat) : List Nat := [p.1, p.2.1, p.2.2.1, p.2.2.2]

/-- `put_diff_pixels` of `src/lib.rs`, returning the rendered output row
instead of mutating an image buffer: decode the row token; for each output
column `x`, read the 4 RGBA bytes at `x*4` if `x` is inside `row_width`,
else use the fully transparent pixel, then blend with the highlight
color. -/
def put_diff_pixels (width row_width : Nat) (data : List Nat)
    (rgb : Nat × Nat × Nat) (rate : ℚ) : Except DecodeError (List Nat) :=
  match b64decode data with
  | .error e => .error e
  | .ok row => .ok ((List.range width).flatMap fun x =>
      pixelList (blend
        (if row_width > x then
          (row.getD (x * 4) 0, row.getD (x * 4 + 1) 0,
           row.getD (x * 4 + 2) 0, row.getD (x * 4 + 3) 0)
         else (0, 0, 0, 0)) rgb rate))

/-- The Row Extractor: split the raw buffer into stride-sized chunks and
encode each as a token (`.chunks(w * 4).map(encode)` in `diff`). -/
def rowTokens (img : Img) : List (List Nat) :=
  (chunksOf (img.width * 4) img.data).map b64encode

/-- The edit-operation sequence `diff` computes for a pair of images. -/
def editOps (before after : Img) : List (DiffResult (List Nat)) :=
  lcs_diff (rowTokens before) (rowTokens after)

/-- The per-operation dispatch of the compositing loop in `diff`:
`Added` rows render with the after width and green, `Removed` with the
before width and red, `Common` with the full output width, black, rate 0. -/
def opRender (before_w after_w width : Nat) (d : DiffResult (List Nat)) :
    Except DecodeError (List Nat) :=
  match d with
  | .Added a => put_diff_pixels width after_w a GREEN RATE
  | .Removed r => put_diff_pixels width before_w r RED RATE
  | .Common c => put_diff_pixels width width c BLACK 0

/-- The compositing loop of `diff`: render one output row per operation,
propagating the first decode error (the `?` operator). -/
def renderRows (before_w after_w width : Nat) :
    List (DiffResult (List Nat)) → Except DecodeError (List (List Nat))
  | [] => .ok []
  | d :: rest =>
    match opRender before_w after_w width d with
    | .error e => .error e
    | .ok r =>
      match renderRows before_w after_w width rest with
      | .error e => .error e
      | .ok rs => .ok (r :: rs)

/-- `diff` of `src/lib.rs`: extract row tokens, align them with `lcs_diff`,
and composite one output row per edit operation into a buffer of width
`max(before_w, after_w)` and height `diff_result.len()`. -/
def diff (before after : Img) : Except DecodeError Img :=
  match renderRows before.width after.width (max before.width after.width)
      (editOps before after) with
  | .error e => .error e
  | .ok rows =>
    .ok ⟨max before.width after.width, (editOps before after).length, rows.flatten⟩

/-- Blending at rate 0 is the identity on the pixel. -/
theorem blend_rate_zero (base : Nat × Nat × Nat × Nat) (rgb : Nat × Nat × Nat) :
    blend base rgb 0 = base := by
  obtain ⟨a, b, c, d⟩ := base
  simp [blend]

theorem floor_blend_quarter (p h : Nat) :
    ⌊(p : ℚ) * (1 - 1/4) + (h : ℚ) * (1/4)⌋₊ = (3 * p + h) / 4 := by
  have e : (p : ℚ) * (1 - 1/4) + (h : ℚ) * (1/4) =
      ((3 * p + h : ℕ) : ℚ) / ((4 : ℕ) : ℚ) := by
    push_cast
    ring
  rw [e, Nat.floor_div_nat, Nat.floor_natCast]

/-- Blending at the fixed rate 1/4 is integer arithmetic:
`(3 * base + highlight) / 4` per color channel. -/
theorem blend_rate_quarter (base : Nat × Nat × Nat × Nat) (rgb : Nat × Nat × Nat) :
    blend base rgb RATE =
      ((3 * base.1 + rgb.1) / 4, (3 * base.2.1 + rgb.2.1) / 4,
       (3 * base.2.2.1 + rgb.2.2) / 4, base.2.2.2) := by
  obtain ⟨a, b, c, d⟩ := base
  simp only [blend, RATE, floor_blend_quarter]

theorem put_diff_pixels_error_iff (width row_width : Nat) (data : List Nat)
    (rgb : Nat × Nat × Nat) (rate : ℚ) (e : DecodeError) :
    put_diff_pixels width row_width data rgb rate = .error e ↔
      b64decode data = .error e := by
  cases h : b64decode data <;> simp [put_diff_pixels, h]

theorem put_diff_pixels_eq_of_decode (width row_width : Nat) (data row : List Nat)
    (rgb : Nat × Nat × Nat) (rate : ℚ) (h : b64decode data = .ok row) :
    put_diff_pixels width row_width data rgb rate =
      .ok ((List.range width).flatMap fun x =>
        pixelList (blend
          (if row_width > x then
            (row.getD (x * 4) 0, row.getD (x * 4 + 1) 0,
             row.getD (x * 4 + 2) 0, row.getD (x * 4 + 3) 0)
           else (0, 0, 0, 0)) rgb rate)) := by
  rw [put_diff_pixels, h]

theorem length_flatMap_four (f : Nat → List Nat) (hf : ∀ x, (f x).length = 4) :
    ∀ l : List Nat, (l.flatMap f).length = 4 * l.length := by
  intro l
  induction l with
  | nil => simp
  | cons a rest ih =>
    rw [List.flatMap_cons, List.length_append, hf a, ih, List.length_cons]
    omega

/-- In a `flatMap` of 4-byte pixels over `range width`, the bytes at
positions `4*x .. 4*x+3` are exactly pixel `x`. -/
theorem flatMap_range_extract (f : Nat → List Nat) (hf : ∀ x, (f x).length = 4) :
    ∀ (w x : Nat), x < w →
      (((List.range w).flatMap f).drop (4 * x)).take 4 = f x := by
  intro w
  induction w generalizing f with
  | zero => intro x hx; omega
  | succ w ih =>
    intro x hx
    rw [List.range_succ_eq_map, List.flatMap_cons, List.flatMap_map]
    cases x with
    | zero =>
      rw [Nat.mul_zero, List.drop_zero]
      exact List.take_left' (hf 0)
    | succ x =>
      have h4 : 4 * (x + 1) = (f 0).length + 4 * x := by
        rw [hf 0]
        omega
      rw [h4, List.drop_append]
      exact ih (fun y => f (y + 1)) (fun y => hf (y + 1)) x (by omega)

/-- Rebuilding a full-width row from its own bytes reproduces the row. -/
theorem flatMap_range_quads :
    ∀ (w : Nat) (row : List Nat), row.length = 4 * w →
      ((List.range w).flatMap fun x =>
        [row.getD (x * 4) 0, row.getD (x * 4 + 1) 0,
         row.getD (x * 4 + 2) 0, row.getD (x * 4 + 3) 0]) = row := by
  intro w
  induction w with
  | zero =>
    intro row hrow
    have hnil : row = [] := List.eq_nil_of_length_eq_zero (by omega)
    subst hnil
    rfl
  | succ w ih =>
    intro row hrow
    match row, hrow with
    | b0 :: b1 :: b2 :: b3 :: rest, hrow =>
      have hrest : rest.length = 4 * w := by
        simp only [List.length_cons] at hrow
        omega
      rw [List.range_succ_eq_map, List.flatMap_cons, List.flatMap_map]
      have hz : ([b0, b1, b2, b3] : List Nat) =
          [(b0 :: b1 :: b2 :: b3 :: rest).getD (0 * 4) 0,
           (b0 :: b1 :: b2 :: b3 :: rest).getD (0 * 4 + 1) 0,
           (b0 :: b1 :: b2 :: b3 :: rest).getD (0 * 4 + 2) 0,
           (b0 :: b1 :: b2 :: b3 :: rest).getD (0 * 4 + 3) 0] := by
        simp [List.getD]
      have htail : (List.range w).flatMap (fun x =>
          [(b0 :: b1 :: b2 :: b3 :: rest).getD ((x + 1) * 4) 0,
           (b0 :: b1 :: b2 :: b3 :: rest).getD ((x + 1) * 4 + 1) 0,
           (b0 :: b1 :: b2 :: b3 :: rest).getD ((x + 1) * 4 + 2) 0,
           (b0 :: b1 :: b2 :: b3 :: rest).getD ((x + 1) * 4 + 3) 0]) = rest := by
        have hcongr : ∀ x ∈ List.range w,
            ([(b0 :: b1 :: b2 :: b3 :: rest).getD ((x + 1) * 4) 0,
              (b0 :: b1 :: b2 :: b3 :: rest).getD ((x + 1) * 4 + 1) 0,
              (b0 :: b1 :: b2 :: b3 :: rest).getD ((x + 1) * 4 + 2) 0,
              (b0 :: b1 :: b2 :: b3 :: rest).getD ((x + 1) * 4 + 3) 0] : List Nat) =
            [rest.getD (x * 4) 0, rest.getD (x * 4 + 1) 0,
             rest.getD (x * 4 + 2) 0, rest.getD (x * 4 + 3) 0] := by
          intro x _
          have h1 : (x + 1) * 4 = x * 4 + 4 := by omega
          rw [h1]
          simp [List.getD_cons_succ, Nat.add_assoc]
        rw [List.flatMap_congr hcongr]
        exact ih rest hrest
      rw [← hz] at *
      rw [htail]
      rfl

theorem opRender_error_iff (bw aw w : Nat) (d : DiffResult (List Nat)) (e : DecodeError) :
    opRender bw aw w d = .error e ↔ b64decode d.data = .error e := by
  cases d <;> simp [opRender, DiffResult.data, put_diff_pixels_error_iff]

theorem opRender_ok_of_decode (bw aw w : Nat) (d : DiffResult (List Nat))
    (row : List Nat) (h : b64decode d.data = .ok row) :
    ∃ r, opRender bw aw w d = .ok r := by
  cases d <;>
    exact ⟨_, put_diff_pixels_eq_of_decode _ _ _ row _ _ h⟩

theorem renderRows_error_mem (bw aw w : Nat) :
    ∀ (ops : List (DiffResult (List Nat))) (e : DecodeError),
      renderRows bw aw w ops = .error e → ∃ d ∈ ops, b64decode d.data = .error e := by
  intro ops
  induction ops with
  | nil =>
    intro e h
    simp [renderRows] at h
  | cons d rest ih =>
    intro e h
    rw [renderRows] at h
    cases hop : opRender bw aw w d with
    | error e2 =>
      rw [hop] at h
      simp only [Except.error.injEq] at h
      subst h
      exact ⟨d, List.mem_cons_self d rest, (opRender_error_iff bw aw w d e2).mp hop⟩
    | ok r =>
      rw [hop] at h
      cases hrest : renderRows bw aw w rest with
      | error e2 =>
        rw [hrest] at h
        simp only [Except.error.injEq] at h
        subst h
        obtain ⟨d2, hd2, hdec⟩ := ih e2 hrest
        exact ⟨d2, List.mem_cons_of_mem d hd2, hdec⟩
      | ok rs =>
        rw [hrest] at h
        simp at h

theorem renderRows_error_of_mem (bw aw w : Nat) :
    ∀ (ops : List (DiffResult (List Nat))) (d : DiffResult (List Nat)),
      d ∈ ops → (∃ e, b64decode d.data = .error e) →
      ∃ e2, renderRows bw aw w ops = .error e2 := by
  intro ops
  induction ops with
  | nil =>
    intro d hd _
    simp at hd
  | cons d0 rest ih =>
    intro d hd hdec
    rcases List.mem_cons.mp hd with rfl | hd
    · obtain ⟨e, he⟩ := hdec
      have hop : opRender bw aw w d = .error e := (opRender_error_iff bw aw w d e).mpr he
      refine ⟨e, ?_⟩
      rw [renderRows, hop]
    · cases hop : opRender bw aw w d0 with
      | error e2 =>
        refine ⟨e2, ?_⟩
        rw [renderRows, hop]
      | ok r =>
        obtain ⟨e2, he2⟩ := ih d hd hdec
        refine ⟨e2, ?_⟩
        rw [renderRows, hop, he2]

theorem renderRows_ok_all (bw aw w : Nat) :
    ∀ ops : List (DiffResult (List Nat)),
      (∀ d ∈ ops, ∃ row, b64decode d.data = .ok row) →
      ∃ rows, renderRows bw aw w ops = .ok rows ∧ rows.length = ops.length := by
  intro ops
  induction ops with
  | nil => intro _; exact ⟨[], rfl, rfl⟩
  | cons d rest ih =>
    intro h
    obtain ⟨row, hrow⟩ := h d (List.mem_cons_self d rest)
    obtain ⟨r, hr⟩ := opRender_ok_of_decode bw aw w d row hrow
    obtain ⟨rows, hrows, hlen⟩ := ih fun d2 hd2 => h d2 (List.mem_cons_of_mem d hd2)
    refine ⟨r :: rows, ?_, by simp [hlen]⟩
    rw [renderRows, hr, hrows]

theorem diff_error_iff (b a : Img) (e : DecodeError) :
    diff b a = .error e ↔
      renderRows b.width a.width (max b.width a.width) (editOps b a) = .error e := by
  cases h : renderRows b.width a.width (max b.width a.width) (editOps b a) <;>
    simp [diff, h]

theorem diff_ok_shape (b a : Img) (out : Img) (h : diff b a = .ok out) :
    out.width = max b.width a.width ∧ out.height = (editOps b a).length := by
  rw [diff] at h
  cases hr : renderRows b.width a.width (max b.width a.width) (editOps b a) with
  | error e =>
    rw [hr] at h
    simp at h
  | ok rows =>
    rw [hr] at h
    simp only [Except.ok.injEq] at h
    subst h
    exact ⟨rfl, rfl⟩

/-- Every operation of `lcs_diff` carries data from one of the inputs. -/
theorem data_mem_lcs_diff {α : Type} [DecidableEq α] (old new : List α)
    (d : DiffResult α) (hd : d ∈ lcs_diff old new) : d.data ∈ old ∨ d.data ∈ new := by
  rw [lcs_diff] at hd
  by_cases hnew : new.length = 0
  · rw [if_pos hnew] at hd
    obtain ⟨x, hx, rfl⟩ := List.mem_map.mp hd
    exact Or.inl (by simpa [DiffResult.data] using hx)
  · rw [if_neg hnew] at hd
    by_cases hold : old.length = 0
    · rw [if_pos hold] at hd
      obtain ⟨x, hx, rfl⟩ := List.mem_map.mp hd
      exact Or.inr (by simpa [DiffResult.data] using hx)
    · rw [if_neg hold] at hd
      rcases List.mem_append.mp hd with hd | hd
      · rcases List.mem_append.mp hd with hd | hd
        · obtain ⟨x, hx, rfl⟩ := List.mem_map.mp hd
          exact Or.inl (by
            simpa [DiffResult.data] using List.mem_of_mem_take hx)
        · rcases data_mem_backtrack _ _ _ _ _ _ _ hd with hm | hm
          · rw [middle_old] at hm
            exact Or.inl (List.mem_of_mem_drop (List.mem_of_mem_take hm))
          · rw [middle_new] at hm
            exact Or.inr (List.mem_of_mem_drop (List.mem_of_mem_take hm))
      · obtain ⟨x, hx, rfl⟩ := List.mem_map.mp hd
        exact Or.inl (by simpa [DiffResult.data] using List.mem_of_mem_drop hx)

theorem mem_chunksGo {α : Type} (k : Nat) :
    ∀ (fuel : Nat) (l c : List α), c ∈ chunksGo k fuel l → ∀ x ∈ c, x ∈ l := by
  intro fuel
  induction fuel with
  | zero =>
    intro l c hc
    cases l <;> simp [chunksGo] at hc
  | succ fuel ih =>
    intro l c hc x hx
    cases l with
    | nil => simp [chunksGo] at hc
    | cons a rest =>
      rw [chunksGo] at hc
      rcases List.mem_cons.mp hc with rfl | hc
      · exact List.mem_of_mem_take hx
      · exact List.mem_of_mem_drop (ih _ c hc x hx)

/-- Every row token is the encoding of a chunk of in-range bytes, and
decodes back to it. -/
theorem rowTokens_decode (img : Img) (hbytes : ∀ x ∈ img.data, x < 256) :
    ∀ t ∈ rowTokens img, ∃ c, t = b64encode c ∧ (∀ x ∈ c, x < 256) ∧
      b64decode t = Except.ok c := by
  intro t ht
  rw [rowTokens] at ht
  obtain ⟨c, hc, rfl⟩ := List.mem_map.mp ht
  have hcx : ∀ x ∈ c, x < 256 := fun x hx =>
    hbytes x (mem_chunksGo _ _ _ _ hc x hx)
  exact ⟨c, rfl, hcx, b64decode_b64encode c hcx⟩

/-- For byte-range image data, every decode in the compositor succeeds and
`diff` returns `ok`. -/
theorem diff_ok_total (b a : Img) (hb : ∀ x ∈ b.data, x < 256)
    (ha : ∀ x ∈ a.data, x < 256) : ∃ out, diff b a = .ok out := by
  have hall : ∀ d ∈ editOps b a, ∃ row, b64decode d.data = .ok row := by
    intro d hd
    rcases data_mem_lcs_diff _ _ d hd with h | h
    · obtain ⟨c, _, _, hdec⟩ := rowTokens_decode b hb d.data h
      exact ⟨c, hdec⟩
    · obtain ⟨c, _, _, hdec⟩ := rowTokens_decode a ha d.data h
      exact ⟨c, hdec⟩
  obtain ⟨rows, hr, _⟩ := renderRows_ok_all b.width a.width (max b.width a.width)
    (editOps b a) hall
  exact ⟨⟨max b.width a.width, (editOps b a).length, rows.flatten⟩, by rw [diff, hr]⟩

/-- A `Common` row rendered at full output width with rate 0 reproduces its
decoded bytes exactly. -/
theorem renderRows_common_rows (bw aw w : Nat) :
    ∀ chunks : List (List Nat),
      (∀ c ∈ chunks, c.length = w * 4 ∧ ∀ x ∈ c, x < 256) →
      renderRows bw aw w ((chunks.map b64encode).map .Common) = .ok chunks := by
  intro chunks
  induction chunks with
  | nil => intro _; rfl
  | cons c rest ih =>
    intro h
    obtain ⟨hclen, hcb⟩ := h c (List.mem_cons_self c rest)
    have hdec := b64decode_b64encode c hcb
    have hop : opRender bw aw w (.Common (b64encode c)) = .ok c := by
      show put_diff_pixels w w (b64encode c) BLACK 0 = .ok c
      rw [put_diff_pixels_eq_of_decode w w _ c BLACK 0 hdec]
      congr 1
      have hcongr : ∀ x ∈ List.range w,
          pixelList (blend
            (if w > x then
              (c.getD (x * 4) 0, c.getD (x * 4 + 1) 0,
               c.getD (x * 4 + 2) 0, c.getD (x * 4 + 3) 0)
             else (0, 0, 0, 0)) BLACK 0) =
          [c.getD (x * 4) 0, c.getD (x * 4 + 1) 0,
           c.getD (x * 4 + 2) 0, c.getD (x * 4 + 3) 0] := by
        intro x hx
        have hxw : w > x := List.mem_range.mp hx
        rw [if_pos hxw, blend_rate_zero]
        rfl
      rw [List.flatMap_congr hcongr]
      exact flatMap_range_quads w c (by omega)
    simp only [List.map_cons]
    rw [renderRows, hop, ih fun c2 hc2 => h c2 (List.mem_cons_of_mem c hc2)]

/-- `diff` of a well-formed image against itself returns the image itself,
byte for byte. -/
theorem diff_self (img : Img) (hw : 0 < img.width)
    (hlen : img.data.length = img.height * (img.width * 4))
    (hbytes : ∀ x ∈ img.data, x < 256) : diff img img = .ok img := by
  obtain ⟨hclen, hcflat, hceach⟩ :=
    chunksOf_spec (img.width * 4) (by omega) img.height img.data hlen
  have hops : editOps img img = (rowTokens img).map .Common := lcs_diff_self _
  have hrt : rowTokens img = (chunksOf (img.width * 4) img.data).map b64encode := rfl
  have hrr : renderRows img.width img.width (max img.width img.width)
      (editOps img img) = .ok (chunksOf (img.width * 4) img.data) := by
    rw [hops, hrt, max_self]
    apply renderRows_common_rows
    intro c hc
    refine ⟨hceach c hc, ?_⟩
    intro x hx
    exact hbytes x (mem_chunksGo _ _ _ _ hc x hx)
  have hh : (editOps img img).length = img.height := by
    rw [hops, List.length_map, rowTokens, List.length_map, hclen]
  rw [diff, hrr]
  show Except.ok (Img.mk (max img.width img.width) (editOps img img).length
      (chunksOf (img.width * 4) img.data).flatten) = Except.ok img
  rw [hcflat, hh, max_self]

theorem rowTokens_length (img : Img) (hw : 0 < img.width)
    (hlen : img.data.length = img.height * (img.width * 4)) :
    (rowTokens img).length = img.height := by
  rw [rowTokens, List.length_map]
  exact (chunksOf_spec (img.width * 4) (by omega) img.height img.data hlen).1

/-- C1: the claim that trimming never changes the edit-operation sequence
is false: with before = [0,1,1] and after = [1], the trimmed algorithm
yields [Removed 0, Removed 1, Common 1] while the untrimmed one yields
[Removed 0, Common 1, Removed 1]. What does hold, and is proved in
`lcs_diff_trim_counts_c1`, is that both sequences always have the same
length and identical counts of Common, Added and Removed operations. -/
theorem lcs_diff_trim_not_identical_c1_counterexample :
    lcs_diff [0, 1, 1] [1] ≠ lcs_diff_untrimmed [0, 1, 1] [1] := by
  decide

/-- C1 (amended): for every pair of sequences, the edit-operation sequence
produced with prefix/suffix trimming has the same length and the same
counts of Common, Added and Removed operations as the untrimmed
table-and-backtracking algorithm over the full sequences (both are
LCS-optimal), though the two sequences need not agree operation by
operation. -/
theorem lcs_diff_trim_counts_c1 {α : Type} [DecidableEq α] (old new : List α) :
    (lcs_diff old new).length = (lcs_diff_untrimmed old new).length ∧
    countCommon (lcs_diff old new) = countCommon (lcs_diff_untrimmed old new) ∧
    countAdded (lcs_diff old new) = countAdded (lcs_diff_untrimmed old new) ∧
    countRemoved (lcs_diff old new) = countRemoved (lcs_diff_untrimmed old new) := by
  have hc1 := countCommon_lcs_diff old new
  have hc2 := countCommon_lcs_diff_untrimmed old new
  have hr1 := counts_lcs_diff old new
  have hr2 := counts_lcs_diff_untrimmed old new
  have hl1 := length_eq_counts (lcs_diff old new)
  have hl2 := length_eq_counts (lcs_diff_untrimmed old new)
  omega

/-- C2: `create_table old new` is a matrix of `new.length + 1` rows and
`old.length + 1` columns in which cell `[i][j]` is the length of the
longest common subsequence of `new.drop i` (the after suffix) and
`old.drop j` (the before suffix): it both bounds every common subsequence
and is attained by one. The last row and last column are all zeros and
cell `[0][0]` is the LCS length of the two full sequences. -/
theorem create_table_spec_c2 {α : Type} [DecidableEq α] (old new : List α) :
    (create_table old new).length = new.length + 1 ∧
    (∀ row ∈ create_table old new, row.length = old.length + 1) ∧
    (∀ i j, i ≤ new.length → j ≤ old.length →
      tableGet (create_table old new) i j = lcsLen (new.drop i) (old.drop j) ∧
      (∃ l, List.Sublist l (new.drop i) ∧ List.Sublist l (old.drop j) ∧
        l.length = tableGet (create_table old new) i j) ∧
      (∀ l, List.Sublist l (new.drop i) → List.Sublist l (old.drop j) →
        l.length ≤ tableGet (create_table old new) i j)) ∧
    (∀ j, tableGet (create_table old new) new.length j = 0) ∧
    (∀ i, tableGet (create_table old new) i old.length = 0) ∧
    tableGet (create_table old new) 0 0 = lcsLen new old := by
  refine ⟨length_create_table old new, length_mem_create_table old new, ?_, ?_, ?_, ?_⟩
  · intro i j _ _
    rw [tableGet_create_table]
    refine ⟨rfl, ?_, ?_⟩
    · obtain ⟨l, h1, h2, h3⟩ := exists_lcs_witness (new.drop i) (old.drop j)
      exact ⟨l, h1, h2, h3⟩
    · intro l h1 h2
      exact length_le_lcsLen _ _ l h1 h2
  · intro j
    rw [tableGet_create_table, List.drop_length, lcsLen_nil_left]
  · intro i
    rw [tableGet_create_table, List.drop_length, lcsLen_nil_right]
  · rw [tableGet_create_table, List.drop_zero, List.drop_zero]

/-- C3: one step of the backtracking loop over the table actually built by
`create_table`, at a state where both indices are unconsumed: a match
emits `Common` and advances both indices; on a mismatch the comparison
`table[n+1][o] >= table[n][o+1]` (here written through the proved meaning
of those cells as suffix LCS lengths) emits `Added` and advances the
after index — ties favor `Added` — and otherwise `Removed` is emitted and
the before index advances. Once either index is exhausted, the remaining
after rows drain as `Added` in order followed by the remaining before
rows as `Removed` in order. -/
theorem backtrack_step_c3 {α : Type} [DecidableEq α] (old new : List α)
    (fuel n o : Nat) (hn : n < new.length) (ho : o < old.length)
    (hfuel : 0 < fuel) :
    (new.get ⟨n, hn⟩ = old.get ⟨o, ho⟩ →
      backtrack (create_table old new) old new fuel n o =
        .Common (new.get ⟨n, hn⟩) ::
          backtrack (create_table old new) old new (fuel - 1) (n + 1) (o + 1)) ∧
    (¬ new.get ⟨n, hn⟩ = old.get ⟨o, ho⟩ →
      lcsLen (new.drop (n + 1)) (old.drop o) ≥ lcsLen (new.drop n) (old.drop (o + 1)) →
      backtrack (create_table old new) old new fuel n o =
        .Added (new.get ⟨n, hn⟩) ::
          backtrack (create_table old new) old new (fuel - 1) (n + 1) o) ∧
    (¬ new.get ⟨n, hn⟩ = old.get ⟨o, ho⟩ →
      ¬ lcsLen (new.drop (n + 1)) (old.drop o) ≥ lcsLen (new.drop n) (old.drop (o + 1)) →
      backtrack (create_table old new) old new fuel n o =
        .Removed (old.get ⟨o, ho⟩) ::
          backtrack (create_table old new) old new (fuel - 1) n (o + 1)) ∧
    (∀ (fuel2 n2 o2 : Nat), new.length ≤ n2 ∨ old.length ≤ o2 →
      backtrack (create_table old new) old new fuel2 n2 o2 =
        (new.drop n2).map .Added ++ (old.drop o2).map .Removed) := by
  obtain ⟨fuel, rfl⟩ : ∃ f, fuel = f + 1 := ⟨fuel - 1, by omega⟩
  have hcond : n < new.length ∧ o < old.length := ⟨hn, ho⟩
  refine ⟨?_, ?_, ?_, ?_⟩
  · intro heq
    rw [backtrack, dif_pos hcond, if_pos heq]
    rfl
  · intro hne hge
    rw [backtrack, dif_pos hcond, if_neg hne]
    rw [if_pos (by rw [tableGet_create_table, tableGet_create_table]; exact hge)]
    rfl
  · intro hne hge
    rw [backtrack, dif_pos hcond, if_neg hne]
    rw [if_neg (by rw [tableGet_create_table, tableGet_create_table]; exact hge)]
    rfl
  · intro fuel2 n2 o2 hout
    cases fuel2 with
    | zero => rw [backtrack]
    | succ fuel2 =>
      rw [backtrack, dif_neg (by omega)]

theorem backtrack_step_c3_witness :
    backtrack (create_table [7, 8] [7, 9]) [7, 8] [7, 9] 5 0 0 =
      DiffResult.Common 7 ::
        backtrack (create_table [7, 8] [7, 9]) [7, 8] [7, 9] 4 1 1 :=
  (backtrack_step_c3 [7, 8] [7, 9] 5 0 0 (by decide) (by decide) (by decide)).1
    (by decide)

/-- C4: the edit script of `lcs_diff` reconstructs both inputs: reading
the payloads of `Removed`/`Common` operations in emission order yields
exactly the before sequence, reading the payloads of `Added`/`Common`
operations yields exactly the after sequence, and therefore
Removed+Common counts equal the before length while Added+Common counts
equal the after length. -/
theorem lcs_diff_reconstruction_c4 {α : Type} [DecidableEq α] (old new : List α) :
    beforeData (lcs_diff old new) = old ∧
    afterData (lcs_diff old new) = new ∧
    countRemoved (lcs_diff old new) + countCommon (lcs_diff old new) = old.length ∧
    countAdded (lcs_diff old new) + countCommon (lcs_diff old new) = new.length :=
  ⟨beforeData_lcs_diff old new, afterData_lcs_diff old new,
    (counts_lcs_diff old new).1, (counts_lcs_diff old new).2⟩

/-- C5: the number of `Common` operations emitted by `lcs_diff` equals the
LCS length of the two full sequences (it bounds and is attained by a
common subsequence), and equals cell `[0][0]` of the table built over the
trimmed middle region plus `prefix_size` plus `suffix_size`. -/
theorem lcs_diff_common_count_c5 {α : Type} [DecidableEq α] (old new : List α) :
    countCommon (lcs_diff old new) = lcsLen new old ∧
    countCommon (lcs_diff old new) =
      tableGet (create_table (middle_old old new) (middle_new old new)) 0 0 +
        prefix_size old new + suffix_size old new ∧
    (∀ l, List.Sublist l new → List.Sublist l old →
      l.length ≤ countCommon (lcs_diff old new)) ∧
    (∃ l, List.Sublist l new ∧ List.Sublist l old ∧
      l.length = countCommon (lcs_diff old new)) := by
  have hc := countCommon_lcs_diff old new
  have hO := old_decomp old new
  rw [take_prefix_size_eq old new, drop_suffix_size_eq old new] at hO
  have hkey := lcsLen_split old new (new.take (prefix_size old new))
    (middle_new old new) (middle_old old new)
    (new.drop (new.length - suffix_size old new)) (new_decomp old new) hO
  have hmin := prefix_suffix_le_min old new
  have hlen1 : (new.take (prefix_size old new)).length = prefix_size old new := by
    rw [List.length_take]
    omega
  have hlen2 : (new.drop (new.length - suffix_size old new)).length =
      suffix_size old new := by
    rw [List.length_drop]
    omega
  refine ⟨hc, ?_, ?_, ?_⟩
  · rw [hc, tableGet_create_table, List.drop_zero, List.drop_zero, hkey,
      hlen1, hlen2]
    omega
  · intro l h1 h2
    rw [hc]
    exact length_le_lcsLen _ _ l h1 h2
  · obtain ⟨l, h1, h2, h3⟩ := exists_lcs_witness new old
    exact ⟨l, h1, h2, by rw [hc]; exact h3⟩

/-- C6: diffing a well-formed RGBA image against itself yields an edit
script of `Common` operations only, one per row, and the output raster is
byte-identical to the input (blending at rate 0 changes nothing). -/
theorem diff_self_identity_c6 (img : Img) (hw : 0 < img.width)
    (hlen : img.data.length = img.height * (img.width * 4))
    (hbytes : ∀ b ∈ img.data, b < 256) :
    diff img img = .ok img ∧
    editOps img img = (rowTokens img).map DiffResult.Common ∧
    (rowTokens img).length = img.height :=
  ⟨diff_self img hw hlen hbytes, lcs_diff_self (rowTokens img),
    rowTokens_length img hw hlen⟩

theorem diff_self_identity_c6_witness :
    diff (Img.mk 1 1 [1, 2, 3, 254]) (Img.mk 1 1 [1, 2, 3, 254]) =
      .ok (Img.mk 1 1 [1, 2, 3, 254]) :=
  (diff_self_identity_c6 (Img.mk 1 1 [1, 2, 3, 254]) (by decide) (by decide)
    (by decide)).1

/-- C7: when `diff` succeeds, the output has width `max` of the two input
widths and height the number of edit operations; that height equals the
before height plus the `Added` count and the after height plus the
`Removed` count, and when no rows are added or removed it equals both
input heights. -/
theorem diff_output_dims_c7 (b a out : Img) (hwb : 0 < b.width) (hwa : 0 < a.width)
    (hlb : b.data.length = b.height * (b.width * 4))
    (hla : a.data.length = a.height * (a.width * 4))
    (hok : diff b a = .ok out) :
    out.width = max b.width a.width ∧
    out.height = (editOps b a).length ∧
    out.height = b.height + countAdded (editOps b a) ∧
    out.height = a.height + countRemoved (editOps b a) ∧
    (countAdded (editOps b a) = 0 → countRemoved (editOps b a) = 0 →
      out.height = b.height ∧ out.height = a.height) := by
  obtain ⟨hw, hh⟩ := diff_ok_shape b a out hok
  have hcounts := counts_lcs_diff (rowTokens b) (rowTokens a)
  have he : lcs_diff (rowTokens b) (rowTokens a) = editOps b a := rfl
  rw [he] at hcounts
  have hlength := length_eq_counts (editOps b a)
  have hhb := rowTokens_length b hwb hlb
  have hha := rowTokens_length a hwa hla
  rw [hhb] at hcounts
  rw [hha] at hcounts
  refine ⟨hw, hh, by rw [hh]; omega, by rw [hh]; omega, ?_⟩
  intro h1 h2
  constructor <;> rw [hh] <;> omega

theorem diff_output_dims_c7_witness :
    (Img.mk 1 1 [0, 0, 0, 0]).height =
      (editOps (Img.mk 1 1 [0, 0, 0, 0]) (Img.mk 1 1 [0, 0, 0, 0])).length :=
  (diff_output_dims_c7 (Img.mk 1 1 [0, 0, 0, 0]) (Img.mk 1 1 [0, 0, 0, 0])
    (Img.mk 1 1 [0, 0, 0, 0]) (by decide) (by decide) (by decide) (by decide)
    (diff_self (Img.mk 1 1 [0, 0, 0, 0]) (by decide) (by decide) (by decide))).2.1

/-- C8: a successfully composited row decodes its token, and for every
output column `x` the four bytes at positions `4x .. 4x+3` are read from
the decoded row when `x` is inside the referenced row width and are the
fully transparent pixel otherwise, with the first three channels equal to
`original * (1 - rate) + highlight * rate` truncated to an integer and
the alpha channel passed through unmodified. -/
theorem put_diff_pixels_spec_c8 (width row_width : Nat) (data : List Nat)
    (rgb : Nat × Nat × Nat) (rate : ℚ) (out : List Nat)
    (hok : put_diff_pixels width row_width data rgb rate = .ok out) :
    ∃ row, b64decode data = .ok row ∧ out.length = 4 * width ∧
      ∀ x, x < width →
        (out.drop (4 * x)).take 4 =
          (let src : Nat × Nat × Nat × Nat :=
            if x < row_width then
              (row.getD (x * 4) 0, row.getD (x * 4 + 1) 0,
               row.getD (x * 4 + 2) 0, row.getD (x * 4 + 3) 0)
            else (0, 0, 0, 0)
           [⌊(src.1 : ℚ) * (1 - rate) + ((rgb.1 : Nat) : ℚ) * rate⌋₊,
            ⌊(src.2.1 : ℚ) * (1 - rate) + ((rgb.2.1 : Nat) : ℚ) * rate⌋₊,
            ⌊(src.2.2.1 : ℚ) * (1 - rate) + ((rgb.2.2 : Nat) : ℚ) * rate⌋₊,
            src.2.2.2]) := by
  rw [put_diff_pixels] at hok
  cases hdec : b64decode data with
  | error e =>
    rw [hdec] at hok
    simp at hok
  | ok row =>
    rw [hdec] at hok
    simp only [Except.ok.injEq] at hok
    subst hok
    refine ⟨row, rfl, ?_, ?_⟩
    · have h4 := length_flatMap_four
        (fun y => pixelList (blend
          (if row_width > y then
            (row.getD (y * 4) 0, row.getD (y * 4 + 1) 0,
             row.getD (y * 4 + 2) 0, row.getD (y * 4 + 3) 0)
           else (0, 0, 0, 0)) rgb rate))
        (fun y => rfl) (List.range width)
      rw [h4, List.length_range]
    · intro x hx
      have hext := flatMap_range_extract
        (fun y => pixelList (blend
          (if row_width > y then
            (row.getD (y * 4) 0, row.getD (y * 4 + 1) 0,
             row.getD (y * 4 + 2) 0, row.getD (y * 4 + 3) 0)
           else (0, 0, 0, 0)) rgb rate))
        (fun y => rfl) width x hx
      rw [hext]
      by_cases hxr : x < row_width
      · rw [if_pos (by omega : row_width > x)]
        simp only [hxr, if_true]
        rfl
      · rw [if_neg (by omega : ¬ row_width > x)]
        simp only [hxr, if_false]
        rfl

theorem put_diff_pixels_spec_c8_witness :
    put_diff_pixels 1 1 (b64encode [9, 8, 7, 6]) BLACK 0 = .ok [9, 8, 7, 6] ∧
    ∃ row, b64decode (b64encode [9, 8, 7, 6]) = Except.ok row := by
  have hok : put_diff_pixels 1 1 (b64encode [9, 8, 7, 6]) BLACK 0 =
      .ok [9, 8, 7, 6] := by
    rw [put_diff_pixels_eq_of_decode 1 1 _ [9, 8, 7, 6] BLACK 0
      (b64decode_b64encode [9, 8, 7, 6] (by decide))]
    congr 1
    simp [List.range_succ, blend_rate_zero, pixelList, List.getD]
  obtain ⟨row, hrow, _, _⟩ :=
    put_diff_pixels_spec_c8 1 1 (b64encode [9, 8, 7, 6]) BLACK 0 [9, 8, 7, 6] hok
  exact ⟨hok, row, hrow⟩

/-- C9: `diff` fails exactly when decoding some edit operation's row token
fails, and the error it returns is the `DecodeError` of one of those row
tokens; the alignment and compositing core produce no other error. -/
theorem diff_error_iff_decode_c9 (b a : Img) :
    ((∃ e, diff b a = .error e) ↔
      ∃ d ∈ editOps b a, ∃ e, b64decode d.data = .error e) ∧
    (∀ e, diff b a = .error e →
      ∃ d ∈ editOps b a, b64decode d.data = .error e) := by
  constructor
  · constructor
    · rintro ⟨e, he⟩
      obtain ⟨d, hd, hdec⟩ := renderRows_error_mem b.width a.width
        (max b.width a.width) (editOps b a) e ((diff_error_iff b a e).mp he)
      exact ⟨d, hd, e, hdec⟩
    · rintro ⟨d, hd, e, hdec⟩
      obtain ⟨e2, he2⟩ := renderRows_error_of_mem b.width a.width
        (max b.width a.width) (editOps b a) d hd ⟨e, hdec⟩
      exact ⟨e2, (diff_error_iff b a e2).mpr he2⟩
  · intro e he
    exact renderRows_error_mem b.width a.width (max b.width a.width)
      (editOps b a) e ((diff_error_iff b a e).mp he)

/-- C10: every row token the compositor consumes is an encoder output and
decodes successfully, so for byte-range image data the `DecodeError`
branch of `diff` is unreachable and `diff` returns `ok`. -/
theorem diff_total_c10 (b a : Img) (hb : ∀ x ∈ b.data, x < 256)
    (ha : ∀ x ∈ a.data, x < 256) :
    (∀ d ∈ editOps b a, ∃ bytes, d.data = b64encode bytes ∧
      b64decode d.data = .ok bytes) ∧
    ∃ out, diff b a = .ok out := by
  constructor
  · intro d hd
    rcases data_mem_lcs_diff _ _ d hd with h | h
    · obtain ⟨c, hc1, _, hdec⟩ := rowTokens_decode b hb d.data h
      exact ⟨c, hc1, hdec⟩
    · obtain ⟨c, hc1, _, hdec⟩ := rowTokens_decode a ha d.data h
      exact ⟨c, hc1, hdec⟩
  · exact diff_ok_total b a hb ha

theorem diff_total_c10_witness :
    ∃ out, diff (Img.mk 1 1 [0, 1, 2, 3])
      (Img.mk 1 2 [9, 9, 9, 9, 4, 4, 4, 4]) = .ok out :=
  (diff_total_c10 (Img.mk 1 1 [0, 1, 2, 3])
    (Img.mk 1 2 [9, 9, 9, 9, 4, 4, 4, 4]) (by decide) (by decide)).2
